import Mathlib

/-!
Declaration emitter of `ast_decl.cc`

A shallow embedding of `VarDecl::Emit` and `FnDecl::Emit` (src/ast_decl.cc) together with
the parts of the symbol table and of the LLVM-style backend those two methods touch.

* Pointers that may be `NULL` are `Option`s; dereferencing `NULL`, appending an instruction
  to a `NULL` block, reading `rbegin()` of an empty map and a checked cast that fails make
  the emitter return `none`.
* `std::map<string, DeclAssoc>` is a list of entries kept strictly increasing by key;
  `insert` leaves the map unchanged when the key is already present.
* `Node::symtable->symTable` (a `vector` of scopes) is kept as a list whose head is `back()`.
* The backend is a record of what has been created so far: globals, functions, basic blocks
  with their instruction lists, and the current insertion block.
-/

namespace Project4

/-! ## AST model -/

/-- Source-level type node (`Type` of ast_type.h), identified by its name. -/
structure AstType where
  typeName : String
deriving DecidableEq, Repr

/-- Modelled from the spec: class `TypeQualifier` of ast_type.h, which is not among the
sources. `VarDecl::Emit` reads one member of it, `constTypeQualifier`, a pointer that is
non-null for a `const` qualifier. -/
structure TypeQualifier where
  constTypeQualifier : Option String
deriving DecidableEq, Repr

/-- Backend type (`llvm::Type`), identified by its name. -/
structure LLVMType where
  typeName : String
deriving DecidableEq, Repr

/-- Backend values (`llvm::Value *`). Objects created by the emitter carry the number they
were created with, functions are looked up by name, arguments by position. -/
inductive Value where
  | constantInt (n : Int)
  | nullValue (ty : LLVMType)
  | globalVariable (id : Nat)
  | function (name : String)
  | argument (fn : String) (idx : Nat)
  | allocaInst (id : Nat)
  | instruction (id : Nat)
deriving DecidableEq, Repr

/-- The subclasses of `llvm::Constant`: the values `llvm::cast<llvm::Constant>` accepts. -/
def Value.isConstant : Value → Bool
  | .constantInt _ => true
  | .nullValue _ => true
  | .globalVariable _ => true
  | .function _ => true
  | .argument _ _ => false
  | .allocaInst _ => false
  | .instruction _ => false

/-- The checked cast `llvm::cast<llvm::Constant>(v)`. -/
def castConstant (v : Value) : Option Value :=
  if v.isConstant then some v else none

/-- Modelled from the spec: expression nodes (`Expr` of ast_expr.h, not among the sources).
An initializer enters `VarDecl::Emit` only through the value its own `Emit` returns, so a
node is represented by that value. -/
structure Expr where
  emitted : Value
deriving DecidableEq, Repr

/-- Class `VarDecl`: identifier, `type`, `typeq`, `assignTo`. The constructors assign
`assignTo` only for a non-null initializer; a member they leave unassigned is taken to be
`NULL`. -/
structure VarDecl where
  id : String
  type : Option AstType
  typeq : Option TypeQualifier
  assignTo : Option Expr
deriving DecidableEq, Repr

/-- Constructor `VarDecl(Identifier *n, Type *t, Expr *e)`: sets `typeq = NULL`. -/
def VarDecl.ofType (n : String) (t : AstType) (e : Option Expr) : VarDecl :=
  { id := n, type := some t, typeq := none, assignTo := e }

/-- Constructor `VarDecl(Identifier *n, TypeQualifier *tq, Expr *e)`: sets `type = NULL`. -/
def VarDecl.ofQualifier (n : String) (tq : TypeQualifier) (e : Option Expr) : VarDecl :=
  { id := n, type := none, typeq := some tq, assignTo := e }

/-- Constructor `VarDecl(Identifier *n, Type *t, TypeQualifier *tq, Expr *e)`. -/
def VarDecl.ofTypeAndQualifier (n : String) (t : AstType) (tq : TypeQualifier)
    (e : Option Expr) : VarDecl :=
  { id := n, type := some t, typeq := some tq, assignTo := e }

/-- Statement nodes of ast_stmt.h. Their `Emit` methods are in ast_stmt.cc, which is not
among the sources, so the statements inside a block and the non-block statements are kept
as their print names. -/
inductive Stmt where
  | StmtBlock (decls : List VarDecl) (stmts : List String)
  | other (printName : String)
deriving DecidableEq, Repr

/-- Class `FnDecl`: identifier, return type and qualifier, formals, body (`NULL` until
`SetFunctionBody`). -/
structure FnDecl where
  id : String
  returnType : AstType
  returnTypeq : Option TypeQualifier
  formals : List VarDecl
  body : Option Stmt
deriving DecidableEq, Repr

/-- A `Decl *`: the declaration node a symbol-table entry points back to. -/
inductive Decl where
  | var (d : VarDecl)
  | fn (f : FnDecl)
deriving DecidableEq, Repr

/-! ## Symbol table -/

/-- The record `SymbolTable::DeclAssoc`. -/
structure DeclAssoc where
  decl : Decl
  value : Value
  isGlobal : Bool
deriving DecidableEq, Repr

/-- Key order of `std::map<string, _>`: `std::string::operator<`, the lexicographic order
of the character sequences. -/
def keyLt (a b : String) : Prop := a.toList < b.toList

instance keyLt.decidable (a b : String) : Decidable (keyLt a b) :=
  inferInstanceAs (Decidable (a.toList < b.toList))

/-- The entries of a map, in iteration order. -/
abbrev Entries := List (String × DeclAssoc)

/-- Strictly increasing keys: the representation invariant of `std::map`. -/
def Entries.Sorted (l : Entries) : Prop := l.Pairwise (fun a b => keyLt a.1 b.1)

/-- Insertion `std::map::insert(pair(k, v))` on the entry list: a key that is already present
keeps its old value, a new key goes to its place in key order. -/
def Entries.insert (k : String) (v : DeclAssoc) : Entries → Entries
  | [] => [(k, v)]
  | (k1, v1) :: rest =>
    if keyLt k k1 then (k, v) :: (k1, v1) :: rest
    else if k = k1 then (k1, v1) :: rest
    else (k1, v1) :: Entries.insert k v rest

/-- Lookup `std::map::find`. -/
def Entries.find (k : String) : Entries → Option DeclAssoc
  | [] => none
  | (k1, v1) :: rest => if k = k1 then some v1 else Entries.find k rest


/-- A scope: one `std::map<string, DeclAssoc>`. -/
structure Scope where
  entries : Entries
  sorted : entries.Sorted
deriving DecidableEq

/-- A default-constructed map. -/
def Scope.empty : Scope := ⟨[], List.Pairwise.nil⟩

/-- Member `insert` of `std::map`. -/
def Scope.insert (s : Scope) (k : String) (v : DeclAssoc) : Scope :=
  ⟨Entries.insert k v s.entries, by
    have key : ∀ l : Entries, l.Sorted →
        (Entries.insert k v l).Sorted ∧
          ∀ x ∈ Entries.insert k v l, x ∈ l ∨ x.1 = k := by
      intro l
      induction l with
      | nil =>
        intro _
        refine ⟨List.pairwise_singleton _ _, ?_⟩
        intro x hx
        simp only [Entries.insert, List.mem_singleton] at hx
        exact Or.inr (by rw [hx])
      | cons hd tl ih =>
        obtain ⟨k1, v1⟩ := hd
        intro hs
        have hs2 := List.pairwise_cons.mp hs
        obtain ⟨ihs, ihm⟩ := ih hs2.2
        unfold Entries.insert
        by_cases h1 : keyLt k k1
        · rw [if_pos h1]
          refine ⟨?_, ?_⟩
          · refine List.pairwise_cons.mpr ⟨?_, hs⟩
            intro x hx
            rcases List.mem_cons.mp hx with rfl | hx
            · exact h1
            · have h2 : keyLt k1 x.1 := hs2.1 x hx
              exact (String.lt_iff_toList_lt.mp
                (lt_trans (String.lt_iff_toList_lt.mpr h1) (String.lt_iff_toList_lt.mpr h2)))
          · intro x hx
            rcases List.mem_cons.mp hx with rfl | hx
            · exact Or.inr rfl
            · exact Or.inl hx
        · rw [if_neg h1]
          by_cases h2 : k = k1
          · rw [if_pos h2]
            exact ⟨hs, fun x hx => Or.inl hx⟩
          · rw [if_neg h2]
            refine ⟨?_, ?_⟩
            · refine List.pairwise_cons.mpr ⟨?_, ihs⟩
              intro x hx
              rcases ihm x hx with hx | hx
              · exact hs2.1 x hx
              · rw [hx]
                have h3 : ¬ k < k1 := fun h => h1 (String.lt_iff_toList_lt.mp h)
                exact String.lt_iff_toList_lt.mp
                  (lt_of_le_of_ne (not_lt.mp h3) (Ne.symm h2))
            · intro x hx
              rcases List.mem_cons.mp hx with rfl | hx
              · exact Or.inl (List.mem_cons_self _ _)
              · rcases ihm x hx with hx | hx
                · exact Or.inl (List.mem_cons_of_mem _ hx)
                · exact Or.inr hx
    exact (key s.entries s.sorted).1⟩

/-- Member `find` of `std::map`. -/
def Scope.find (s : Scope) (k : String) : Option DeclAssoc := Entries.find k s.entries

/-- The entry `rbegin()->second`: the value stored under the greatest key. An empty map has
no such entry (`rbegin() == rend()`). -/
def Scope.rbegin (s : Scope) : Option DeclAssoc := (s.entries.getLast?).map Prod.snd


/-! ## Backend -/

/-- Linkage kinds (`llvm::GlobalValue::LinkageTypes`); the emitter only asks for
`ExternalLinkage`. -/
inductive Linkage where
  | ExternalLinkage
  | InternalLinkage
deriving DecidableEq, Repr

/-- A module-level global: the arguments of the `llvm::GlobalVariable` constructor, and the
number the object was created with. -/
structure GlobalVariable where
  id : Nat
  type : LLVMType
  isConstant : Bool
  linkage : Linkage
  initializer : Value
  name : String
deriving DecidableEq, Repr

/-- A function type: the arguments of `llvm::FunctionType::get`. -/
structure FunctionType where
  result : LLVMType
  params : List LLVMType
  isVarArg : Bool
deriving DecidableEq, Repr

/-- A function of the module, with the names given to its arguments. -/
structure Function where
  name : String
  type : FunctionType
  argNames : List String
deriving DecidableEq, Repr

/-- The two instructions the declaration emitter creates. -/
inductive Instruction where
  | alloca (id : Nat) (type : LLVMType) (name : String)
  | store (value : Value) (ptr : Value)
deriving DecidableEq, Repr

/-- A basic block: the arguments of `llvm::BasicBlock::Create` and the instructions
appended so far. -/
structure BasicBlock where
  name : String
  parent : String
  insertBefore : Option Nat
  insts : List Instruction
deriving DecidableEq, Repr

/-- The code generator `irgen`: the module `irgen.bc` (globals and functions), the basic
blocks created so far, the current block (`GetBasicBlock`, `NULL` before the first
`SetBasicBlock`) and the count of objects created. -/
structure IRGenerator where
  globals : List GlobalVariable
  functions : List Function
  blocks : List BasicBlock
  currentBB : Option Nat
  nextId : Nat
deriving DecidableEq, Repr

/-- A fresh code generator: empty module, no current block. -/
def IRGenerator.init : IRGenerator :=
  { globals := [], functions := [], blocks := [], currentBB := none, nextId := 0 }

/-- Constructor `new llvm::GlobalVariable(*mod, type, isConstant, linkage, constant, name)`:
adds the global to the module and returns its handle. -/
def IRGenerator.newGlobalVariable (g : IRGenerator) (type : LLVMType) (isConstant : Bool)
    (linkage : Linkage) (constant : Value) (name : String) : Value × IRGenerator :=
  (Value.globalVariable g.nextId,
    { g with
      globals := g.globals ++
        [{ id := g.nextId, type := type, isConstant := isConstant, linkage := linkage,
           initializer := constant, name := name }],
      nextId := g.nextId + 1 })

/-- Whether `GetBasicBlock()` is a block of the module: it is `NULL` before the first
`SetBasicBlock`. -/
def IRGenerator.hasCurrentBlock (g : IRGenerator) : Bool :=
  match g.currentBB with
  | none => false
  | some b => decide (b < g.blocks.length)

/-- Append an instruction at the end of block `bb`, as the insert-at-end constructors of the
instructions do. They need a block to append to: with `bb = NULL` (or a `bb` that is no
block of the module) there is no result. -/
def IRGenerator.append (g : IRGenerator) (bb : Option Nat) (i : Instruction) :
    Option IRGenerator :=
  match bb with
  | none => none
  | some b =>
    if b < g.blocks.length then
      some { g with
        blocks := g.blocks.modify (fun blk => { blk with insts := blk.insts ++ [i] }) b }
    else none

/-- Constructor `new llvm::AllocaInst(type, name, insertAtEnd)`. -/
def IRGenerator.newAllocaInst (g : IRGenerator) (type : LLVMType) (name : String)
    (bb : Option Nat) : Option (Value × IRGenerator) :=
  match g.append bb (Instruction.alloca g.nextId type name) with
  | none => none
  | some g1 => some (Value.allocaInst g.nextId, { g1 with nextId := g.nextId + 1 })

/-- Constructor `new llvm::StoreInst(value, ptr, insertAtEnd)`. -/
def IRGenerator.newStoreInst (g : IRGenerator) (value ptr : Value) (bb : Option Nat) :
    Option IRGenerator :=
  g.append bb (Instruction.store value ptr)

/-- The call `llvm::cast<llvm::Function>(mod->getOrInsertFunction(name, funcTy))`. The module
looks the name up among all its global values. A function of that name and type is reused;
a function of that name with another type, or a global variable of that name, comes back as
a bitcast, which the checked cast rejects; a name that is free gets a new function.

The `name` of a `GlobalVariable` is the name it was created with. A variable created under
a name that a function already holds is renamed by the module, so a function of the name,
when there is one, is what the lookup finds. -/
def IRGenerator.getOrInsertFunction (g : IRGenerator) (name : String) (funcTy : FunctionType) :
    Option (Value × IRGenerator) :=
  match g.functions.find? (fun fn => fn.name == name) with
  | some fn => if fn.type = funcTy then some (Value.function name, g) else none
  | none =>
    if g.globals.any (fun gv => gv.name == name) then none
    else
      some (Value.function name,
        { g with functions := g.functions ++
            [{ name := name, type := funcTy, argNames := funcTy.params.map (fun _ => "") }] })

/-- The call `it->setName(argName)` with `it` at argument `idx` of function `fn`. -/
def IRGenerator.setArgName (g : IRGenerator) (fn : String) (idx : Nat) (argName : String) :
    IRGenerator :=
  { g with functions := g.functions.map (fun f =>
      if f.name = fn then { f with argNames := f.argNames.set idx argName } else f) }

/-- The call `llvm::BasicBlock::Create(*context, name, f, insertBefore)`: returns the new
block. -/
def IRGenerator.createBasicBlock (g : IRGenerator) (name : String) (parent : String)
    (insertBefore : Option Nat) : Nat × IRGenerator :=
  (g.blocks.length,
    { g with blocks := g.blocks ++
        [{ name := name, parent := parent, insertBefore := insertBefore, insts := [] }] })

/-- Setter `irgen->SetBasicBlock(bb)`. -/
def IRGenerator.SetBasicBlock (g : IRGenerator) (bb : Nat) : IRGenerator :=
  { g with currentBB := some bb }

/-- The instructions of block `bb`. -/
def IRGenerator.instsOf (g : IRGenerator) (bb : Nat) : List Instruction :=
  match g.blocks[bb]? with
  | some blk => blk.insts
  | none => []

/-! ## Emitter state and external collaborators -/

/-- The two process-wide objects the emitters work on: `Node::irgen` and
`Node::symtable->symTable`. The scope list is kept with `back()` first, so the bottom
(module) scope is the last element. -/
structure State where
  irgen : IRGenerator
  symTable : List Scope
deriving DecidableEq

/-- The state before anything is emitted. -/
def State.init : State := { irgen := IRGenerator.init, symTable := [] }

/-- What the emitters use from files that are not among the sources.

* `Converter`: `IRGenerator::Converter` (irgen.cc), applied to a possibly null `Type *`.
* `defaultIsGlobal`: the `isGlobal` member of a `DeclAssoc` that was declared and never
  assigned (symtable.h declares the record; the emitters leave the member untouched on some
  paths).
* `EmitFromFunc`: `StmtBlock::EmitFromFunc` (ast_stmt.cc), run on the block's declarations
  and statements. -/
structure Externals where
  Converter : Option AstType → LLVMType
  defaultIsGlobal : Bool
  EmitFromFunc : List VarDecl → List String → State → Option State

/-! ## `VarDecl::Emit` (lines 44-112) -/

/-- Lines 55-61: the initial value. With an initializer it is the value the initializer
emits, passed through `llvm::cast<llvm::Constant>`; without one it is the null value of the
converted type. -/
def VarDecl.constant (ext : Externals) (d : VarDecl) : Option Value :=
  match d.assignTo with
  | some e => castConstant e.emitted
  | none => some (Value.nullValue (ext.Converter d.type))

/-- Method `VarDecl::Emit`. Returns the storage handle and the new state, or `none` where the
source dereferences a null pointer (`this->typeq` at line 63), reads `rbegin()` of an empty
map (line 92), applies the checked cast to a non-constant (line 57) or appends to a null
block (lines 102-103).

Line 107 passes `map<string, DeclAssoc>(name, declassoc)` to `insert`; it is read as the
`pair<string, DeclAssoc>(name, declassoc)` of lines 83, 195, 205 and 222. -/
def VarDecl.Emit (ext : Externals) (d : VarDecl) (s : State) : Option (Value × State) :=
  -- gets llvm type
  let type := ext.Converter d.type
  match VarDecl.constant ext d with
  | none => none
  | some constant =>
    match d.typeq with
    | none => none
    | some tq =>
      let isConstant : Bool := tq.constTypeQualifier.isSome
      let name := d.id
      match s.symTable with
      | [] =>
        let (value, g1) :=
          s.irgen.newGlobalVariable type isConstant Linkage.ExternalLinkage constant name
        let declassoc : DeclAssoc := { decl := Decl.var d, value := value, isGlobal := true }
        some (value, { irgen := g1, symTable := [Scope.empty.insert name declassoc] })
      | currentScope :: rest =>
        -- checks if this is a global scope
        match currentScope.rbegin with
        | none => none
        | some currDeclAssoc =>
          if currDeclAssoc.isGlobal = true then
            let (value, g1) :=
              s.irgen.newGlobalVariable type isConstant Linkage.ExternalLinkage constant name
            let declassoc : DeclAssoc := { decl := Decl.var d, value := value, isGlobal := true }
            some (value, { irgen := g1, symTable := currentScope.insert name declassoc :: rest })
          else
            match s.irgen.newAllocaInst type name s.irgen.currentBB with
            | none => none
            | some (value, g1) =>
              match g1.newStoreInst constant value g1.currentBB with
              | none => none
              | some g2 =>
                let declassoc : DeclAssoc :=
                  { decl := Decl.var d, value := value, isGlobal := ext.defaultIsGlobal }
                some (value,
                  { irgen := g2, symTable := currentScope.insert name declassoc :: rest })

/-! ## `FnDecl::Emit` (lines 141-238) -/

/-- Lines 153-159: the loop that fills `argTypes` by `push_back`, one converted type per
formal. -/
def FnDecl.argTypes (ext : Externals) (formals : List VarDecl) : List LLVMType :=
  formals.foldl (fun argTypes v => argTypes ++ [ext.Converter v.type]) []

/-- Lines 145-163: the function type `llvm::FunctionType::get(returnType, argArray, false)`. -/
def FnDecl.funcTy (ext : Externals) (f : FnDecl) : FunctionType :=
  { result := ext.Converter (some f.returnType),
    params := FnDecl.argTypes ext f.formals,
    isVarArg := false }

/-- Lines 174-182: for the formals from position `i` on, call `v->Emit()` and name argument
`i` of the function after the formal. -/
def FnDecl.emitFormals (ext : Externals) (fname : String) :
    List VarDecl → Nat → State → Option State
  | [], _, s => some s
  | v :: vs, i, s =>
    match VarDecl.Emit ext v s with
    | none => none
    | some (_, s1) =>
      FnDecl.emitFormals ext fname vs (i + 1)
        { s1 with irgen := s1.irgen.setArgName fname i v.id }

/-- Lines 189-207: insert the function under its name into the scope on top of the stack, or
into a new bottom scope when the stack is empty. The `isGlobal` member of the record is not
assigned. -/
def FnDecl.registerName (ext : Externals) (f : FnDecl) (fh : Value) (symTable : List Scope) :
    List Scope :=
  let declassoc : DeclAssoc :=
    { decl := Decl.fn f, value := fh, isGlobal := ext.defaultIsGlobal }
  match symTable with
  | [] => [Scope.empty.insert f.id declassoc]
  | currentScope :: rest => currentScope.insert f.id declassoc :: rest

/-- Lines 211-224: for each formal an alloca named after it and a store into it, both in the
current block, and an entry of the formals scope. The stored value is `arg`, which is set to
`f->arg_begin()` at line 212 and never advanced (line 223 increments `it`). -/
def FnDecl.bindFormals (ext : Externals) (fname : String) :
    List VarDecl → IRGenerator → Scope → Option (IRGenerator × Scope)
  | [], g, newScope => some (g, newScope)
  | v :: vs, g, newScope =>
    let name := v.id
    let tempType := ext.Converter v.type
    match g.newAllocaInst tempType name g.currentBB with
    | none => none
    | some (value, g1) =>
      match g1.newStoreInst (Value.argument fname 0) value g1.currentBB with
      | none => none
      | some g2 =>
        let declassoc : DeclAssoc := { decl := Decl.var v, value := value, isGlobal := false }
        FnDecl.bindFormals ext fname vs g2 (newScope.insert name declassoc)

/-- Lines 145-226 of `FnDecl::Emit`: everything up to and including the push of the formals
scope. Returns the function handle and the state in which the body is emitted. -/
def FnDecl.EmitPrologue (ext : Externals) (f : FnDecl) (s : State) : Option (Value × State) :=
  let funcTy := FnDecl.funcTy ext f
  -- Create the function and insert it into module
  match s.irgen.getOrInsertFunction f.id funcTy with
  | none => none
  | some (fh, g0) =>
    -- starting to loop through function pointer
    match FnDecl.emitFormals ext f.id f.formals 0 { s with irgen := g0 } with
    | none => none
    | some s1 =>
      -- insert a block into the function
      let (bb, g2) := s1.irgen.createBasicBlock "entry" f.id s1.irgen.currentBB
      let g3 := g2.SetBasicBlock bb
      let symTable1 := FnDecl.registerName ext f fh s1.symTable
      -- creating a new scope for the formals
      match FnDecl.bindFormals ext f.id f.formals g3 Scope.empty with
      | none => none
      | some (g4, newScope) =>
        -- pushing new scope
        some (fh, { irgen := g4, symTable := newScope :: symTable1 })

/-- Method `FnDecl::Emit`: the prologue, then `EmitFromFunc` on the body cast to a
`StmtBlock` (lines 228-229); a body that is absent or not a block makes the cast yield
`NULL`. -/
def FnDecl.Emit (ext : Externals) (f : FnDecl) (s : State) : Option (Value × State) :=
  match FnDecl.EmitPrologue ext f s with
  | none => none
  | some (fh, s1) =>
    match f.body with
    | some (Stmt.StmtBlock decls stmts) =>
      match ext.EmitFromFunc decls stmts s1 with
      | none => none
      | some s2 => some (fh, s2)
    | _ => none

/-- The number of scopes on the stack. -/
def State.depth (s : State) : Nat := s.symTable.length

/-! ## Sample inputs -/

namespace Sample

/-- Externals used for the concrete runs: types convert by name (a null type to `void`), an
unassigned `isGlobal` reads as `false`, and the body emission leaves the state as it is. -/
def ext : Externals :=
  { Converter := fun t =>
      match t with
      | some a => { typeName := a.typeName }
      | none => { typeName := "void" },
    defaultIsGlobal := false,
    EmitFromFunc := fun _ _ s => some s }

/-- The source type `int`. -/
def intType : AstType := { typeName := "int" }

/-- The backend type `int`. -/
def llvmInt : LLVMType := { typeName := "int" }

/-- A qualifier that is not `const`. -/
def plainQualifier : TypeQualifier := { constTypeQualifier := none }

/-- The qualifier `const`. -/
def constQualifier : TypeQualifier := { constTypeQualifier := some "const" }

/-- Declaration `int g = 5` carrying a non-const qualifier. -/
def g : VarDecl :=
  VarDecl.ofTypeAndQualifier "g" intType plainQualifier (some { emitted := Value.constantInt 5 })

/-- Declaration `int n` carrying a non-const qualifier. -/
def n : VarDecl := VarDecl.ofTypeAndQualifier "n" intType plainQualifier none

/-- Declaration `int a` carrying a non-const qualifier. -/
def a : VarDecl := VarDecl.ofTypeAndQualifier "a" intType plainQualifier none

/-- Declaration `int b` carrying a non-const qualifier. -/
def b : VarDecl := VarDecl.ofTypeAndQualifier "b" intType plainQualifier none

/-- Declaration `int r` carrying a non-const qualifier. -/
def r : VarDecl := VarDecl.ofTypeAndQualifier "r" intType plainQualifier none

/-- Declaration `int x = 1` carrying a non-const qualifier. -/
def x1 : VarDecl :=
  VarDecl.ofTypeAndQualifier "x" intType plainQualifier (some { emitted := Value.constantInt 1 })

/-- A second declaration of `x`: `const int x = 2`. -/
def x2 : VarDecl :=
  VarDecl.ofTypeAndQualifier "x" intType constQualifier (some { emitted := Value.constantInt 2 })

/-- Declaration `int g = 5` as the type-only constructor builds it: no qualifier. -/
def gNoQualifier : VarDecl :=
  VarDecl.ofType "g" intType (some { emitted := Value.constantInt 5 })

/-- Function `int f() { }`. -/
def f0 : FnDecl :=
  { id := "f", returnType := intType, returnTypeq := none, formals := [],
    body := some (Stmt.StmtBlock [] []) }

/-- Function `int f(int n) { }`. -/
def fN : FnDecl :=
  { id := "f", returnType := intType, returnTypeq := none, formals := [n],
    body := some (Stmt.StmtBlock [] []) }

/-- Function `int f(int a, int b) { }`. -/
def fAB : FnDecl :=
  { id := "f", returnType := intType, returnTypeq := none, formals := [a, b],
    body := some (Stmt.StmtBlock [] []) }

/-- A code generator inside function `int f(int n)`: globals `g` and `x`, the function, its
entry block as the current block. -/
def genInF : IRGenerator :=
  { globals :=
      [{ id := 0, type := llvmInt, isConstant := false, linkage := Linkage.ExternalLinkage,
         initializer := Value.constantInt 5, name := "g" },
       { id := 1, type := llvmInt, isConstant := false, linkage := Linkage.ExternalLinkage,
         initializer := Value.constantInt 1, name := "x" }],
    functions :=
      [{ name := "f", type := { result := llvmInt, params := [llvmInt], isVarArg := false },
         argNames := ["n"] }],
    blocks := [{ name := "entry", parent := "f", insertBefore := none, insts := [] }],
    currentBB := some 0,
    nextId := 2 }

/-- The bottom scope holding `g`, flagged global. -/
def bottomG : Scope :=
  Scope.empty.insert "g"
    { decl := Decl.var g, value := Value.globalVariable 0, isGlobal := true }

/-- A scope holding `x`, flagged global. -/
def scopeXGlobal : Scope :=
  Scope.empty.insert "x"
    { decl := Decl.var x1, value := Value.globalVariable 1, isGlobal := true }

/-- Two scopes on the stack, the upper one with an entry flagged global. -/
def nestedFlagged : State := { irgen := genInF, symTable := [scopeXGlobal, bottomG] }

/-- The top level after `int g = 5`: the global `g` in the module, no function, no block,
and only the bottom scope, holding `g`. -/
def topLevelNoFn : State :=
  { irgen :=
      { globals :=
          [{ id := 0, type := llvmInt, isConstant := false,
             linkage := Linkage.ExternalLinkage, initializer := Value.constantInt 5,
             name := "g" }],
        functions := [], blocks := [], currentBB := none, nextId := 1 },
    symTable := [bottomG] }

end Sample

/-! ## Facts about the maps -/

theorem keyLt_irrefl (a : String) : ¬ keyLt a a := fun h =>
  lt_irrefl a (String.lt_iff_toList_lt.mpr h)

theorem keyLt_asymm {a b : String} (h : keyLt a b) : ¬ keyLt b a := fun h2 =>
  lt_asymm (String.lt_iff_toList_lt.mpr h) (String.lt_iff_toList_lt.mpr h2)

theorem Entries.mem_of_find {k : String} {old : DeclAssoc} :
    ∀ {l : Entries}, Entries.find k l = some old → (k, old) ∈ l := by
  intro l
  induction l with
  | nil => intro h; simp [Entries.find] at h
  | cons hd tl ih =>
    obtain ⟨k1, v1⟩ := hd
    intro h
    unfold Entries.find at h
    by_cases hk : k = k1
    · rw [if_pos hk] at h
      cases h
      rw [hk]
      exact List.mem_cons_self _ _
    · rw [if_neg hk] at h
      exact List.mem_cons_of_mem _ (ih h)

/-- Inserting under a key that is present leaves the entries as they are. -/
theorem Entries.insert_unchanged_of_find {k : String} {v old : DeclAssoc} :
    ∀ {l : Entries}, l.Sorted → Entries.find k l = some old → Entries.insert k v l = l := by
  intro l
  induction l with
  | nil => intro _ h; simp [Entries.find] at h
  | cons hd tl ih =>
    obtain ⟨k1, v1⟩ := hd
    intro hs h
    have hs2 := List.pairwise_cons.mp hs
    unfold Entries.find at h
    unfold Entries.insert
    by_cases hk : k = k1
    · have hlt : ¬ keyLt k k1 := by rw [hk]; exact keyLt_irrefl k1
      rw [if_neg hlt, if_pos hk]
    · rw [if_neg hk] at h
      have hmem := Entries.mem_of_find h
      have hlt : ¬ keyLt k k1 := keyLt_asymm (hs2.1 _ hmem)
      rw [if_neg hlt, if_neg hk, ih hs2.2 h]

/-- Inserting under a key that is absent makes the key map to the inserted record. -/
theorem Entries.find_insert_new_key {k : String} {v : DeclAssoc} :
    ∀ {l : Entries}, Entries.find k l = none →
      Entries.find k (Entries.insert k v l) = some v := by
  intro l
  induction l with
  | nil => intro _; simp [Entries.insert, Entries.find]
  | cons hd tl ih =>
    obtain ⟨k1, v1⟩ := hd
    intro h
    unfold Entries.find at h
    by_cases hk : k = k1
    · rw [if_pos hk] at h
      cases h
    · rw [if_neg hk] at h
      unfold Entries.insert
      by_cases hlt : keyLt k k1
      · rw [if_pos hlt]
        simp [Entries.find]
      · rw [if_neg hlt, if_neg hk]
        unfold Entries.find
        rw [if_neg hk]
        exact ih h

/-- Inserting under one key does not change what another key maps to. -/
theorem Entries.find_insert_other_key {k k2 : String} {v : DeclAssoc} (hne : k ≠ k2) :
    ∀ {l : Entries}, Entries.find k (Entries.insert k2 v l) = Entries.find k l := by
  intro l
  induction l with
  | nil => simp [Entries.insert, Entries.find, hne]
  | cons hd tl ih =>
    obtain ⟨k1, v1⟩ := hd
    unfold Entries.insert
    by_cases hlt : keyLt k2 k1
    · rw [if_pos hlt]
      conv_lhs => unfold Entries.find
      rw [if_neg hne]
    · rw [if_neg hlt]
      by_cases hk : k2 = k1
      · rw [if_pos hk]
      · rw [if_neg hk]
        unfold Entries.find
        rw [ih]

theorem Entries.insert_ne_nil (k : String) (v : DeclAssoc) :
    ∀ l : Entries, Entries.insert k v l ≠ [] := by
  intro l
  cases l with
  | nil => simp [Entries.insert]
  | cons hd tl =>
    obtain ⟨k1, v1⟩ := hd
    unfold Entries.insert
    split_ifs <;> simp

theorem Scope.eq_of_entries_eq {s t : Scope} (h : s.entries = t.entries) : s = t := by
  cases s
  cases t
  simp only [Scope.mk.injEq]
  exact h

theorem Scope.insert_eq_self_of_find {s : Scope} {k : String} {v old : DeclAssoc}
    (h : s.find k = some old) : s.insert k v = s :=
  Scope.eq_of_entries_eq (Entries.insert_unchanged_of_find s.sorted h)

theorem Scope.find_insert_self_of_find_none {s : Scope} {k : String} {v : DeclAssoc}
    (h : s.find k = none) : (s.insert k v).find k = some v :=
  Entries.find_insert_new_key h

theorem Scope.find_insert_of_ne {s : Scope} {k k2 : String} {v : DeclAssoc} (hne : k ≠ k2) :
    (s.insert k2 v).find k = s.find k :=
  Entries.find_insert_other_key hne

theorem Scope.find_empty (k : String) : Scope.empty.find k = none := rfl

/-- After an insertion the map has a last entry. -/
theorem Scope.rbegin_insert_ne_none (s : Scope) (k : String) (v : DeclAssoc) :
    (s.insert k v).rbegin ≠ none := by
  unfold Scope.rbegin Scope.insert
  simp only [ne_eq, Option.map_eq_none', List.getLast?_eq_none_iff]
  exact Entries.insert_ne_nil k v s.entries

/-- A map in which a key is found has a last entry. -/
theorem Scope.rbegin_of_find {s : Scope} {k : String} {old : DeclAssoc}
    (h : s.find k = some old) : ∃ a, s.rbegin = some a := by
  have hmem := Entries.mem_of_find h
  have hne : s.entries ≠ [] := List.ne_nil_of_mem hmem
  obtain ⟨x, hx⟩ := Option.isSome_iff_exists.mp (List.getLast?_isSome.mpr hne)
  exact ⟨x.2, by unfold Scope.rbegin; rw [hx]; rfl⟩

/-- Inserting into a map leaves the last entry as it was or makes the inserted record the
last entry. -/
theorem Entries.getLast_insert (k : String) (v : DeclAssoc) :
    ∀ l : Entries, (Entries.insert k v l).getLast? = l.getLast? ∨
      (Entries.insert k v l).getLast? = some (k, v) := by
  intro l
  induction l with
  | nil => exact Or.inr rfl
  | cons hd tl ih =>
    obtain ⟨k1, v1⟩ := hd
    unfold Entries.insert
    by_cases h1 : keyLt k k1
    · rw [if_pos h1]
      exact Or.inl List.getLast?_cons_cons
    · rw [if_neg h1]
      by_cases h2 : k = k1
      · rw [if_pos h2]
        exact Or.inl rfl
      · rw [if_neg h2]
        have hne := Entries.insert_ne_nil k v tl
        obtain ⟨y, ys, hy⟩ := List.exists_cons_of_ne_nil hne
        rw [hy, List.getLast?_cons_cons, ← hy]
        cases tl with
        | nil => exact Or.inr rfl
        | cons t ts =>
          rw [List.getLast?_cons_cons]
          exact ih

theorem Scope.rbegin_insert (s : Scope) (k : String) (v : DeclAssoc) :
    (s.insert k v).rbegin = s.rbegin ∨ (s.insert k v).rbegin = some v := by
  unfold Scope.rbegin Scope.insert
  rcases Entries.getLast_insert k v s.entries with h | h
  · exact Or.inl (by simp only [h])
  · exact Or.inr (by simp only [h]; rfl)

/-! ## Facts about the backend -/

theorem IRGenerator.hasCurrentBlock_iff (g : IRGenerator) :
    g.hasCurrentBlock = true ↔ ∃ b, g.currentBB = some b ∧ b < g.blocks.length := by
  unfold IRGenerator.hasCurrentBlock
  cases h : g.currentBB with
  | none => simp
  | some b => simp

theorem IRGenerator.instsOf_modify (g : IRGenerator) (bb : Nat) (i : Instruction)
    (h : bb < g.blocks.length) :
    ({ g with blocks := g.blocks.modify (fun blk => { blk with insts := blk.insts ++ [i] }) bb }
      : IRGenerator).instsOf bb = g.instsOf bb ++ [i] := by
  unfold IRGenerator.instsOf
  simp only [List.getElem?_modify_eq]
  rw [List.getElem?_eq_getElem h]
  rfl

/-- What an alloca followed by a store leaves in the backend when there is a current
block: both constructors return, the alloca gets the next number, and the current block
ends with the two instructions. -/
theorem IRGenerator.alloca_store_effect (g : IRGenerator) (ty : LLVMType) (name : String)
    (c : Value) (hbb : g.hasCurrentBlock = true) :
    ∃ g1 g2, g.newAllocaInst ty name g.currentBB = some (Value.allocaInst g.nextId, g1) ∧
      g1.newStoreInst c (Value.allocaInst g.nextId) g1.currentBB = some g2 ∧
      g2.globals = g.globals ∧ g2.functions = g.functions ∧ g2.currentBB = g.currentBB ∧
      g2.nextId = g.nextId + 1 ∧ g2.blocks.length = g.blocks.length ∧
      g2.hasCurrentBlock = true ∧
      ∀ bb, g.currentBB = some bb →
        g2.instsOf bb = g.instsOf bb ++
          [Instruction.alloca g.nextId ty name,
           Instruction.store c (Value.allocaInst g.nextId)] := by
  obtain ⟨b, hb, hlt⟩ := (IRGenerator.hasCurrentBlock_iff g).mp hbb
  have hlt1 : b < (g.blocks.modify (fun blk =>
      { blk with insts := blk.insts ++ [Instruction.alloca g.nextId ty name] }) b).length := by
    simpa using hlt
  refine ⟨{ g with
      blocks := g.blocks.modify (fun blk =>
        { blk with insts := blk.insts ++ [Instruction.alloca g.nextId ty name] }) b,
      nextId := g.nextId + 1 },
    { g with
      blocks := (g.blocks.modify (fun blk =>
        { blk with insts := blk.insts ++ [Instruction.alloca g.nextId ty name] }) b).modify
          (fun blk => { blk with
            insts := blk.insts ++ [Instruction.store c (Value.allocaInst g.nextId)] }) b,
      nextId := g.nextId + 1 }, ?_, ?_, rfl, rfl, rfl, rfl, ?_, ?_, ?_⟩
  · simp [IRGenerator.newAllocaInst, IRGenerator.append, hb, hlt]
  · simp [IRGenerator.newStoreInst, IRGenerator.append, hb, hlt]
  · simp
  · rw [IRGenerator.hasCurrentBlock_iff]
    exact ⟨b, hb, by simpa using hlt⟩
  · intro bb hbb2
    rw [hb] at hbb2
    cases hbb2
    have e1 := IRGenerator.instsOf_modify
      { g with
        blocks := g.blocks.modify (fun blk =>
          { blk with insts := blk.insts ++ [Instruction.alloca g.nextId ty name] }) b,
        nextId := g.nextId + 1 } b (Instruction.store c (Value.allocaInst g.nextId)) hlt1
    have e2 := IRGenerator.instsOf_modify g b (Instruction.alloca g.nextId ty name) hlt
    have e3 : ({ g with
        blocks := g.blocks.modify (fun blk =>
          { blk with insts := blk.insts ++ [Instruction.alloca g.nextId ty name] }) b,
        nextId := g.nextId + 1 } : IRGenerator).instsOf b =
        ({ g with
        blocks := g.blocks.modify (fun blk =>
          { blk with insts := blk.insts ++ [Instruction.alloca g.nextId ty name] }) b }
          : IRGenerator).instsOf b := rfl
    rw [e3, e2] at e1
    rw [List.append_assoc] at e1
    exact e1

/-! ## The three paths of `VarDecl::Emit` -/

/-- Empty scope stack (lines 74-85): a global, registered in a new bottom scope. -/
theorem VarDecl.Emit_of_empty (ext : Externals) (d : VarDecl) (tq : TypeQualifier)
    (c : Value) (g : IRGenerator) (htq : d.typeq = some tq)
    (hc : VarDecl.constant ext d = some c) :
    VarDecl.Emit ext d { irgen := g, symTable := [] } =
      some (Value.globalVariable g.nextId,
        { irgen := (g.newGlobalVariable (ext.Converter d.type) tq.constTypeQualifier.isSome
            Linkage.ExternalLinkage c d.id).2,
          symTable := [Scope.empty.insert d.id
            { decl := Decl.var d, value := Value.globalVariable g.nextId,
              isGlobal := true }] }) := by
  unfold VarDecl.Emit
  simp only [hc, htq]
  rfl

/-- Last entry of the top scope flagged global (lines 95-99): a global, registered in the
top scope. -/
theorem VarDecl.Emit_of_flag_true (ext : Externals) (d : VarDecl) (tq : TypeQualifier)
    (c : Value) (g : IRGenerator) (top : Scope) (rest : List Scope) (a : DeclAssoc)
    (htq : d.typeq = some tq) (hc : VarDecl.constant ext d = some c)
    (hr : top.rbegin = some a) (ha : a.isGlobal = true) :
    VarDecl.Emit ext d { irgen := g, symTable := top :: rest } =
      some (Value.globalVariable g.nextId,
        { irgen := (g.newGlobalVariable (ext.Converter d.type) tq.constTypeQualifier.isSome
            Linkage.ExternalLinkage c d.id).2,
          symTable := top.insert d.id
            { decl := Decl.var d, value := Value.globalVariable g.nextId,
              isGlobal := true } :: rest }) := by
  unfold VarDecl.Emit
  simp only [hc, htq, hr, ha]
  rfl

/-- Last entry of the top scope not flagged global (lines 100-104), when the two
constructors return: an alloca and a store, registered in the top scope. -/
theorem VarDecl.Emit_of_flag_false (ext : Externals) (d : VarDecl) (tq : TypeQualifier)
    (c : Value) (g g1 g2 : IRGenerator) (top : Scope) (rest : List Scope) (a : DeclAssoc)
    (htq : d.typeq = some tq) (hc : VarDecl.constant ext d = some c)
    (hr : top.rbegin = some a) (ha : a.isGlobal = false)
    (h1 : g.newAllocaInst (ext.Converter d.type) d.id g.currentBB =
      some (Value.allocaInst g.nextId, g1))
    (h2 : g1.newStoreInst c (Value.allocaInst g.nextId) g1.currentBB = some g2) :
    VarDecl.Emit ext d { irgen := g, symTable := top :: rest } =
      some (Value.allocaInst g.nextId,
        { irgen := g2,
          symTable := top.insert d.id
            { decl := Decl.var d, value := Value.allocaInst g.nextId,
              isGlobal := ext.defaultIsGlobal } :: rest }) := by
  unfold VarDecl.Emit
  simp only [hc, htq, hr, ha, h1, h2]
  rfl

/-! ## Claims on `VarDecl::Emit` -/

/-- C7: a `VarDecl` built by the constructor that takes an unqualified type only has
`typeq = NULL`, and `VarDecl::Emit` dereferences `typeq` at line 63: on every state the
emission does not complete, so no storage, constant or not, is emitted. -/
theorem VarDecl_Emit_ofType_does_not_complete (ext : Externals) (name : String) (t : AstType)
    (e : Option Expr) (s : State) :
    (VarDecl.ofType name t e).typeq = none ∧
      VarDecl.Emit ext (VarDecl.ofType name t e) s = none := by
  refine ⟨rfl, ?_⟩
  unfold VarDecl.Emit
  cases VarDecl.constant ext (VarDecl.ofType name t e) <;> rfl

/-- C2: in the state in which the body of the formal-less `int f()` is emitted (two scopes
on the stack, the upper one the empty formals scope pushed at line 226, the entry block
current), the declaration `int r` does not become a stack slot: `VarDecl::Emit` reads
`rbegin()` of the empty formals scope at line 92 and does not complete. -/
theorem VarDecl_Emit_in_formal_less_function_does_not_complete :
    (FnDecl.EmitPrologue Sample.ext Sample.f0 State.init).map
        (fun p => (p.2.depth, p.2.symTable.map (fun sc => sc.entries.length),
          p.2.irgen.hasCurrentBlock, VarDecl.Emit Sample.ext Sample.r p.2)) =
      some (2, [0, 1], true, none) := by
  decide

/-- C3: on the empty scope stack the top-level declaration `int g = 5`, built by the
type-only constructor as the declaration is written, creates no global: `VarDecl::Emit`
does not complete (line 63). The same declaration carrying a qualifier becomes the one
global with external linkage and initial value 5. -/
theorem VarDecl_Emit_top_level_no_qualifier_does_not_complete :
    State.init.symTable = [] ∧
    VarDecl.Emit Sample.ext Sample.gNoQualifier State.init = none ∧
    (VarDecl.Emit Sample.ext Sample.g State.init).map (fun p => (p.1, p.2.irgen.globals)) =
      some (Value.globalVariable 0,
        [{ id := 0, type := Sample.llvmInt, isConstant := false,
           linkage := Linkage.ExternalLinkage, initializer := Value.constantInt 5,
           name := "g" }]) := by
  decide

/-- C9, as the code has it: when the name is already a key of the top scope, `VarDecl::Emit`
(qualifier present, initializer absent or constant, a current block where the last entry of
the top scope is not flagged global) completes without a report and creates new storage,
and the symbol table is left exactly as it was: the top scope still maps the name to the
earlier record. -/
theorem VarDecl_Emit_duplicate_keeps_earlier_entry (ext : Externals) (d : VarDecl)
    (tq : TypeQualifier) (c : Value) (s : State) (top : Scope) (rest : List Scope)
    (old : DeclAssoc) (htq : d.typeq = some tq) (hc : VarDecl.constant ext d = some c)
    (hs : s.symTable = top :: rest) (hold : top.find d.id = some old)
    (hbb : ∀ a, top.rbegin = some a → a.isGlobal = false → s.irgen.hasCurrentBlock = true) :
    ∃ v s1, VarDecl.Emit ext d s = some (v, s1) ∧
      (v = Value.globalVariable s.irgen.nextId ∨ v = Value.allocaInst s.irgen.nextId) ∧
      s1.irgen.nextId = s.irgen.nextId + 1 ∧
      s1.symTable = s.symTable ∧
      ∃ cur rest1, s1.symTable = cur :: rest1 ∧ cur.find d.id = some old := by
  obtain ⟨g, st⟩ := s
  simp only at hs hbb
  subst hs
  obtain ⟨a, hr⟩ := Scope.rbegin_of_find hold
  cases ha : a.isGlobal with
  | true =>
    refine ⟨_, _, VarDecl.Emit_of_flag_true ext d tq c g top rest a htq hc hr ha, Or.inl rfl,
      rfl, ?_, top, rest, ?_, hold⟩
    · simp only [Scope.insert_eq_self_of_find hold]
    · simp only [Scope.insert_eq_self_of_find hold]
  | false =>
    obtain ⟨g1, g2, h1, h2, heff⟩ :=
      IRGenerator.alloca_store_effect g (ext.Converter d.type) d.id c (hbb a hr ha)
    refine ⟨_, _, VarDecl.Emit_of_flag_false ext d tq c g g1 g2 top rest a htq hc hr ha h1 h2,
      Or.inr rfl, heff.2.2.2.1, ?_, top, rest, ?_, hold⟩
    · simp only [Scope.insert_eq_self_of_find hold]
    · simp only [Scope.insert_eq_self_of_find hold]

/-- C9, as the code has it, at a concrete input: `const int x = 2` declared where the top
scope already holds `x`. -/
theorem VarDecl_Emit_duplicate_keeps_earlier_entry_witness :
    Sample.x2.typeq = some Sample.constQualifier ∧
    VarDecl.constant Sample.ext Sample.x2 = some (Value.constantInt 2) ∧
    Sample.nestedFlagged.symTable = Sample.scopeXGlobal :: [Sample.bottomG] ∧
    Sample.scopeXGlobal.find Sample.x2.id =
      some { decl := Decl.var Sample.x1, value := Value.globalVariable 1, isGlobal := true } ∧
    Sample.nestedFlagged.irgen.hasCurrentBlock = true ∧
    ∃ v s1, VarDecl.Emit Sample.ext Sample.x2 Sample.nestedFlagged = some (v, s1) ∧
      s1.irgen.nextId = 3 ∧
      s1.symTable = Sample.nestedFlagged.symTable := by
  obtain ⟨v, s1, he, _, hnext, hsym, _⟩ :=
    VarDecl_Emit_duplicate_keeps_earlier_entry Sample.ext Sample.x2 Sample.constQualifier
      (Value.constantInt 2) Sample.nestedFlagged Sample.scopeXGlobal [Sample.bottomG]
      { decl := Decl.var Sample.x1, value := Value.globalVariable 1, isGlobal := true }
      (by decide) (by decide) (by decide) (by decide) (fun _ _ _ => by decide)
  exact ⟨by decide, by decide, by decide, by decide, by decide, v, s1, he, hnext, hsym⟩

/-- C9 fails as stated: emitting `int x = 1` and then `const int x = 2` from the empty table
creates a second global (handle 1) for the second declaration, and the only scope still
maps `x` to the record of the first one (its node and handle 0). -/
theorem VarDecl_Emit_duplicate_counterexample :
    ((VarDecl.Emit Sample.ext Sample.x1 State.init).bind
        (fun p => VarDecl.Emit Sample.ext Sample.x2 p.2)).map
        (fun q => (q.1, q.2.irgen.globals.length, q.2.symTable.map (fun sc => sc.find "x"))) =
      some (Value.globalVariable 1, 2,
        [some { decl := Decl.var Sample.x1, value := Value.globalVariable 0,
                isGlobal := true }]) ∧
    Sample.x1 ≠ Sample.x2 := by
  decide

/-! ## Facts about the loops of `FnDecl::Emit` -/

theorem Scope.find_insert_self (s : Scope) (k : String) (v : DeclAssoc) :
    (s.insert k v).find k = some ((s.find k).getD v) := by
  cases h : s.find k with
  | none => simpa using Scope.find_insert_self_of_find_none h
  | some old =>
    rw [Scope.insert_eq_self_of_find h, h]
    rfl

theorem FnDecl.argTypes_foldl (ext : Externals) (formals : List VarDecl) :
    ∀ acc : List LLVMType,
      formals.foldl (fun argTypes v => argTypes ++ [ext.Converter v.type]) acc =
        acc ++ formals.map (fun v => ext.Converter v.type) := by
  induction formals with
  | nil => intro acc; simp
  | cons v vs ih =>
    intro acc
    simp only [List.foldl_cons, List.map_cons]
    rw [ih]
    simp

/-- A name that no function of another type holds, and that no global variable holds when
no function does, gives back the handle of the function of that name; globals, blocks and
the current block are untouched. -/
theorem IRGenerator.getOrInsertFunction_of_no_clash (g : IRGenerator) (name : String)
    (funcTy : FunctionType)
    (h : ∀ fn ∈ g.functions, fn.name = name → fn.type = funcTy)
    (hvar : (∀ fn ∈ g.functions, fn.name ≠ name) → ∀ gv ∈ g.globals, gv.name ≠ name) :
    ∃ g0, g.getOrInsertFunction name funcTy = some (Value.function name, g0) ∧
      g0.globals = g.globals ∧ g0.hasCurrentBlock = g.hasCurrentBlock := by
  unfold IRGenerator.getOrInsertFunction
  cases hf : g.functions.find? (fun fn => fn.name == name) with
  | none =>
    have hnone : ∀ fn ∈ g.functions, fn.name ≠ name := by
      intro fn hfn
      have := List.find?_eq_none.mp hf fn hfn
      simpa using this
    have hany : g.globals.any (fun gv => gv.name == name) = false := by
      rw [List.any_eq_false]
      intro gv hgv
      simpa using hvar hnone gv hgv
    simp only [hany]
    exact ⟨_, rfl, rfl, rfl⟩
  | some fn =>
    have hmem := List.mem_of_find?_eq_some hf
    have hname : fn.name = name := by
      have := List.find?_some hf
      simpa using this
    simp only [h fn hmem hname, if_true]
    exact ⟨_, rfl, rfl, rfl⟩

/-- One call `v->Emit()` of the loop of lines 174-182, on a stack whose top scope has a last
entry that is flagged global or else with a current block: the call completes, changes the
symbol table only by an insertion under the formal's name into the top scope, and leaves
the top scope and the backend in such a state again. -/
theorem VarDecl.Emit_of_nonempty (ext : Externals) (d : VarDecl) (tq : TypeQualifier)
    (c : Value) (g : IRGenerator) (top : Scope) (rest : List Scope) (a : DeclAssoc)
    (htq : d.typeq = some tq) (hc : VarDecl.constant ext d = some c)
    (hr : top.rbegin = some a) (hready : a.isGlobal = true ∨ g.hasCurrentBlock = true) :
    ∃ v g1 da, VarDecl.Emit ext d { irgen := g, symTable := top :: rest } =
        some (v, { irgen := g1, symTable := top.insert d.id da :: rest }) ∧
      ∃ a1, (top.insert d.id da).rbegin = some a1 ∧
        (a1.isGlobal = true ∨ g1.hasCurrentBlock = true) := by
  cases ha : a.isGlobal with
  | true =>
    refine ⟨_, _, _, VarDecl.Emit_of_flag_true ext d tq c g top rest a htq hc hr ha, ?_⟩
    rcases Scope.rbegin_insert top d.id
      { decl := Decl.var d, value := Value.globalVariable g.nextId, isGlobal := true }
      with h | h
    · exact ⟨a, by rw [h, hr], Or.inl ha⟩
    · exact ⟨_, h, Or.inl rfl⟩
  | false =>
    have hbb : g.hasCurrentBlock = true := by
      rcases hready with h | h
      · rw [ha] at h
        cases h
      · exact h
    obtain ⟨g1, g2, h1, h2, heff⟩ :=
      IRGenerator.alloca_store_effect g (ext.Converter d.type) d.id c hbb
    refine ⟨_, _, _,
      VarDecl.Emit_of_flag_false ext d tq c g g1 g2 top rest a htq hc hr ha h1 h2, ?_⟩
    obtain ⟨a1, ha1⟩ := Option.ne_none_iff_exists'.mp
      (Scope.rbegin_insert_ne_none top d.id
        { decl := Decl.var d, value := Value.allocaInst g.nextId,
          isGlobal := ext.defaultIsGlobal })
    exact ⟨a1, ha1, Or.inr heff.2.2.2.2.2.1⟩

/-- The loop of lines 174-182 on a stack whose top scope has a last entry that is flagged
global or else with a current block: it completes, the scopes below the top are untouched,
and a key that is no formal's name maps to what it mapped to before. -/
theorem FnDecl.emitFormals_of_nonempty (ext : Externals) (fname : String) :
    ∀ (formals : List VarDecl) (i : Nat) (g : IRGenerator) (top : Scope) (rest : List Scope)
      (a : DeclAssoc),
      (∀ v ∈ formals, ∃ tq c, v.typeq = some tq ∧ VarDecl.constant ext v = some c) →
      top.rbegin = some a → (a.isGlobal = true ∨ g.hasCurrentBlock = true) →
      ∃ s1 top1, FnDecl.emitFormals ext fname formals i { irgen := g, symTable := top :: rest } =
          some s1 ∧
        s1.symTable = top1 :: rest ∧
        ∀ k, (∀ v ∈ formals, v.id ≠ k) → top1.find k = top.find k := by
  intro formals
  induction formals with
  | nil =>
    intro i g top rest a _ _ _
    exact ⟨_, top, rfl, rfl, fun _ _ => rfl⟩
  | cons v vs ih =>
    intro i g top rest a hwf hr hready
    obtain ⟨tq, c, htq, hc⟩ := hwf v (List.mem_cons_self _ _)
    obtain ⟨hv, g1, da, he, a1, hr1, hready1⟩ :=
      VarDecl.Emit_of_nonempty ext v tq c g top rest a htq hc hr hready
    obtain ⟨s1, top1, hs1, hsym, hfind⟩ :=
      ih (i + 1) (g1.setArgName fname i v.id) (top.insert v.id da) rest a1
        (fun w hw => hwf w (List.mem_cons_of_mem _ hw)) hr1 hready1
    refine ⟨s1, top1, ?_, hsym, ?_⟩
    · unfold FnDecl.emitFormals
      rw [he]
      exact hs1
    · intro k hk
      rw [hfind k (fun w hw => hk w (List.mem_cons_of_mem _ hw))]
      exact Scope.find_insert_of_ne (Ne.symm (hk v (List.mem_cons_self _ _)))

/-- The loop of lines 174-182 on an empty stack with at least one formal: the first
`v->Emit()` creates the bottom scope, and the rest goes as on a non-empty stack. -/
theorem FnDecl.emitFormals_of_empty (ext : Externals) (fname : String) (v : VarDecl)
    (vs : List VarDecl) (i : Nat) (g : IRGenerator)
    (hwf : ∀ w ∈ v :: vs, ∃ tq c, w.typeq = some tq ∧ VarDecl.constant ext w = some c) :
    ∃ s1 top1, FnDecl.emitFormals ext fname (v :: vs) i { irgen := g, symTable := [] } =
        some s1 ∧
      s1.symTable = [top1] ∧
      ∀ k, (∀ w ∈ v :: vs, w.id ≠ k) → top1.find k = none := by
  obtain ⟨tq, c, htq, hc⟩ := hwf v (List.mem_cons_self _ _)
  have he := VarDecl.Emit_of_empty ext v tq c g htq hc
  have hr : (Scope.empty.insert v.id
      { decl := Decl.var v, value := Value.globalVariable g.nextId,
        isGlobal := true }).rbegin =
      some { decl := Decl.var v, value := Value.globalVariable g.nextId,
             isGlobal := true } := by
    rcases Scope.rbegin_insert Scope.empty v.id
      { decl := Decl.var v, value := Value.globalVariable g.nextId, isGlobal := true }
      with h | h
    · exact absurd h (Scope.rbegin_insert_ne_none _ _ _)
    · exact h
  obtain ⟨s1, top1, hs1, hsym, hfind⟩ :=
    FnDecl.emitFormals_of_nonempty ext fname vs (i + 1)
      (((g.newGlobalVariable (ext.Converter v.type) tq.constTypeQualifier.isSome
        Linkage.ExternalLinkage c v.id).2).setArgName fname i v.id)
      (Scope.empty.insert v.id
        { decl := Decl.var v, value := Value.globalVariable g.nextId, isGlobal := true }) []
      { decl := Decl.var v, value := Value.globalVariable g.nextId, isGlobal := true }
      (fun w hw => hwf w (List.mem_cons_of_mem _ hw)) hr (Or.inl rfl)
  refine ⟨s1, top1, ?_, hsym, ?_⟩
  · unfold FnDecl.emitFormals
    rw [he]
    exact hs1
  · intro k hk
    rw [hfind k (fun w hw => hk w (List.mem_cons_of_mem _ hw)),
      Scope.find_insert_of_ne (Ne.symm (hk v (List.mem_cons_self _ _)))]
    rfl

/-- The loop of lines 211-224 with a current block: it completes, keeps every entry it
found in the scope, adds only entries that are not flagged global, and leaves an entry
under every formal's name. -/
theorem FnDecl.bindFormals_scope (ext : Externals) (fname : String) :
    ∀ (formals : List VarDecl) (g : IRGenerator) (sc : Scope),
      g.hasCurrentBlock = true →
      (∀ k da, sc.find k = some da → da.isGlobal = false) →
      ∃ g4 sc4, FnDecl.bindFormals ext fname formals g sc = some (g4, sc4) ∧
        (∀ k da, sc4.find k = some da → da.isGlobal = false) ∧
        (∀ k, (sc.find k).isSome → (sc4.find k).isSome) ∧
        ∀ v ∈ formals, (sc4.find v.id).isSome := by
  intro formals
  induction formals with
  | nil =>
    intro g sc _ hsc
    exact ⟨g, sc, rfl, hsc, fun _ h => h, fun v hv => by cases hv⟩
  | cons v vs ih =>
    intro g sc hbb hsc
    obtain ⟨g1, g2, h1, h2, heff⟩ :=
      IRGenerator.alloca_store_effect g (ext.Converter v.type) v.id
        (Value.argument fname 0) hbb
    have hsc1 : ∀ k da,
        (sc.insert v.id
          { decl := Decl.var v, value := Value.allocaInst g.nextId,
            isGlobal := false }).find k = some da → da.isGlobal = false := by
      intro k da hk
      by_cases hkv : k = v.id
      · subst hkv
        rw [Scope.find_insert_self] at hk
        cases hold : sc.find v.id with
        | none =>
          rw [hold] at hk
          cases hk
          rfl
        | some old =>
          rw [hold] at hk
          cases hk
          exact hsc _ _ hold
      · rw [Scope.find_insert_of_ne hkv] at hk
        exact hsc k da hk
    obtain ⟨g4, sc4, hb, k1, k2, k3⟩ := ih g2
      (sc.insert v.id
        { decl := Decl.var v, value := Value.allocaInst g.nextId, isGlobal := false })
      heff.2.2.2.2.2.1 hsc1
    have hins : ∀ k, (sc.find k).isSome →
        ((sc.insert v.id
          { decl := Decl.var v, value := Value.allocaInst g.nextId,
            isGlobal := false }).find k).isSome := by
      intro k hk
      by_cases hkv : k = v.id
      · subst hkv
        rw [Scope.find_insert_self]
        rfl
      · rw [Scope.find_insert_of_ne hkv]
        exact hk
    refine ⟨g4, sc4, ?_, k1, fun k hk => k2 k (hins k hk), ?_⟩
    · unfold FnDecl.bindFormals
      simp only [h1, h2]
      exact hb
    · intro w hw
      rcases List.mem_cons.mp hw with rfl | hw
      · exact k2 _ (by rw [Scope.find_insert_self]; rfl)
      · exact k3 w hw

/-- The loop of lines 174-182 in the three situations in which it completes: no formal, an
empty stack, a top scope whose last entry is flagged global or else with a current block.
Afterwards the stack is empty only if it was empty and there was no formal; otherwise the
scopes below the top are those from before, and a key that the top scope did not hold and
that is no formal's name is still absent. -/
theorem FnDecl.emitFormals_spec (ext : Externals) (fname : String) (formals : List VarDecl)
    (i : Nat) (s : State)
    (hwf : ∀ v ∈ formals, ∃ tq c, v.typeq = some tq ∧ VarDecl.constant ext v = some c)
    (hstack : formals = [] ∨ s.symTable = [] ∨
      ∃ top rest a, s.symTable = top :: rest ∧ top.rbegin = some a ∧
        (a.isGlobal = true ∨ s.irgen.hasCurrentBlock = true)) :
    ∃ s1, FnDecl.emitFormals ext fname formals i s = some s1 ∧
      (s1.symTable = [] ∧ s.symTable = [] ∨
        ∃ top1, s1.symTable = top1 :: s.symTable.tail ∧
          ∀ k, (∀ top ∈ s.symTable.head?, top.find k = none) → (∀ v ∈ formals, v.id ≠ k) →
            top1.find k = none) := by
  obtain ⟨g, st⟩ := s
  rcases hstack with hnil | hempty | ⟨top, rest, a, hst, hr, hready⟩
  · subst hnil
    refine ⟨_, rfl, ?_⟩
    cases st with
    | nil => exact Or.inl ⟨rfl, rfl⟩
    | cons top rest =>
      exact Or.inr ⟨top, rfl, fun k h _ => h top (by simp)⟩
  · simp only at hempty
    subst hempty
    cases formals with
    | nil => exact ⟨_, rfl, Or.inl ⟨rfl, rfl⟩⟩
    | cons v vs =>
      obtain ⟨s1, top1, hs1, hsym, hfind⟩ :=
        FnDecl.emitFormals_of_empty ext fname v vs i g hwf
      exact ⟨s1, hs1, Or.inr ⟨top1, hsym, fun k _ hk => hfind k hk⟩⟩
  · simp only at hst hready
    subst hst
    obtain ⟨s1, top1, hs1, hsym, hfind⟩ :=
      FnDecl.emitFormals_of_nonempty ext fname formals i g top rest a hwf hr hready
    refine ⟨s1, hs1, Or.inr ⟨top1, hsym, ?_⟩⟩
    intro k hk hne
    rw [hfind k hne]
    exact hk top (by simp)

/-- After `BasicBlock::Create` and `SetBasicBlock` (lines 186-188) there is a current
block. -/
theorem IRGenerator.hasCurrentBlock_entry (g : IRGenerator) (name parent : String)
    (before : Option Nat) :
    ((g.createBasicBlock name parent before).2.SetBasicBlock
      (g.createBasicBlock name parent before).1).hasCurrentBlock = true := by
  rw [IRGenerator.hasCurrentBlock_iff]
  exact ⟨g.blocks.length, rfl, by simp [IRGenerator.createBasicBlock,
    IRGenerator.SetBasicBlock]⟩

/-- Lines 145-226 of `FnDecl::Emit`, when the name and signature do not clash with the
module, the formals have a qualifier and an absent or constant initializer, and the loop of
lines 174-182 meets a top scope whose last entry is flagged global or else has a current
block: the prologue completes with the handle of the function, leaves the formals scope on
top of one scope and of the scopes that were below the top, every formal is found in the
formals scope with `isGlobal = false`, and the scope below the formals scope maps the
function's name to a record of the function handle and the declaration unless that scope
held the name before or a formal bears it. -/
theorem FnDecl.EmitPrologue_spec (ext : Externals) (f : FnDecl) (s : State)
    (hsig : ∀ fn ∈ s.irgen.functions, fn.name = f.id → fn.type = FnDecl.funcTy ext f)
    (hvar : (∀ fn ∈ s.irgen.functions, fn.name ≠ f.id) →
      ∀ gv ∈ s.irgen.globals, gv.name ≠ f.id)
    (hwf : ∀ v ∈ f.formals, ∃ tq c, v.typeq = some tq ∧ VarDecl.constant ext v = some c)
    (hstack : f.formals = [] ∨ s.symTable = [] ∨
      ∃ top rest a, s.symTable = top :: rest ∧ top.rbegin = some a ∧
        (a.isGlobal = true ∨ s.irgen.hasCurrentBlock = true)) :
    ∃ s1 newScope cur, FnDecl.EmitPrologue ext f s = some (Value.function f.id, s1) ∧
      s1.symTable = newScope :: cur :: s.symTable.tail ∧
      (∀ v ∈ f.formals, ∃ da, newScope.find v.id = some da ∧ da.isGlobal = false) ∧
      ((∀ top ∈ s.symTable.head?, top.find f.id = none) → (∀ v ∈ f.formals, v.id ≠ f.id) →
        ∃ da, cur.find f.id = some da ∧ da.decl = Decl.fn f ∧
          da.value = Value.function f.id) := by
  obtain ⟨g0, hg0, _, hg0bb⟩ :=
    IRGenerator.getOrInsertFunction_of_no_clash s.irgen f.id (FnDecl.funcTy ext f) hsig hvar
  have hstack0 : f.formals = [] ∨ ({ s with irgen := g0 } : State).symTable = [] ∨
      ∃ top rest a, ({ s with irgen := g0 } : State).symTable = top :: rest ∧
        top.rbegin = some a ∧
        (a.isGlobal = true ∨ ({ s with irgen := g0 } : State).irgen.hasCurrentBlock = true) := by
    rcases hstack with h | h | ⟨top, rest, a, h1, h2, h3⟩
    · exact Or.inl h
    · exact Or.inr (Or.inl h)
    · refine Or.inr (Or.inr ⟨top, rest, a, h1, h2, ?_⟩)
      rcases h3 with h3 | h3
      · exact Or.inl h3
      · exact Or.inr (by simp only [hg0bb]; exact h3)
  obtain ⟨s1, hs1, hshape⟩ :=
    FnDecl.emitFormals_spec ext f.id f.formals 0 { s with irgen := g0 } hwf hstack0
  obtain ⟨g4, newScope, hb, hloc, _, hall⟩ := FnDecl.bindFormals_scope ext f.id f.formals
    ((s1.irgen.createBasicBlock "entry" f.id s1.irgen.currentBB).2.SetBasicBlock
      (s1.irgen.createBasicBlock "entry" f.id s1.irgen.currentBB).1)
    Scope.empty (IRGenerator.hasCurrentBlock_entry _ _ _ _)
    (fun k da h => by rw [Scope.find_empty] at h; cases h)
  have hformals : ∀ v ∈ f.formals, ∃ da, newScope.find v.id = some da ∧
      da.isGlobal = false := by
    intro v hv
    obtain ⟨da, hda⟩ := Option.isSome_iff_exists.mp (hall v hv)
    exact ⟨da, hda, hloc _ _ hda⟩
  have hE : FnDecl.EmitPrologue ext f s = some (Value.function f.id,
      { irgen := g4,
        symTable := newScope :: FnDecl.registerName ext f (Value.function f.id) s1.symTable }) := by
    unfold FnDecl.EmitPrologue
    simp only [hg0, hs1, hb]
  rcases hshape with ⟨h1, h0⟩ | ⟨top1, h1, hfind⟩
  · simp only at h0
    refine ⟨_, _, Scope.empty.insert f.id
      { decl := Decl.fn f, value := Value.function f.id, isGlobal := ext.defaultIsGlobal },
      hE, ?_, hformals, ?_⟩
    · simp [h1, h0, FnDecl.registerName]
    · intro _ _
      exact ⟨_, Scope.find_insert_self_of_find_none (Scope.find_empty f.id), rfl, rfl⟩
  · simp only at h1 hfind
    refine ⟨_, _, top1.insert f.id
      { decl := Decl.fn f, value := Value.function f.id, isGlobal := ext.defaultIsGlobal },
      hE, ?_, hformals, ?_⟩
    · simp [h1, FnDecl.registerName]
    · intro hk hne
      exact ⟨_, Scope.find_insert_self_of_find_none (hfind f.id hk hne), rfl, rfl⟩

/-! ## The function stays in the module -/

/-- The call `v->Emit()` leaves the functions of the module as they are. -/
theorem VarDecl.Emit_functions {ext : Externals} {d : VarDecl} {s s1 : State} {v : Value}
    (h : VarDecl.Emit ext d s = some (v, s1)) : s1.irgen.functions = s.irgen.functions := by
  unfold VarDecl.Emit at h
  cases hc : VarDecl.constant ext d with
  | none => simp [hc] at h
  | some c =>
    cases htq : d.typeq with
    | none => simp [hc, htq] at h
    | some tq =>
      obtain ⟨g, st⟩ := s
      cases st with
      | nil =>
        simp only [hc, htq, Option.some.injEq, Prod.mk.injEq] at h
        rw [← h.2]
        rfl
      | cons top rest =>
        cases hr : top.rbegin with
        | none => simp [hc, htq, hr] at h
        | some a =>
          cases ha : a.isGlobal with
          | true =>
            simp only [hc, htq, hr, ha, if_true, Option.some.injEq, Prod.mk.injEq] at h
            rw [← h.2]
            rfl
          | false =>
            simp only [hc, htq, hr, ha] at h
            cases hbb : g.hasCurrentBlock with
            | false =>
              have hno : g.newAllocaInst (ext.Converter d.type) d.id g.currentBB = none := by
                unfold IRGenerator.hasCurrentBlock at hbb
                unfold IRGenerator.newAllocaInst IRGenerator.append
                cases hcur : g.currentBB with
                | none => rfl
                | some b =>
                  rw [hcur] at hbb
                  have hlt : ¬ b < g.blocks.length := by simpa using hbb
                  simp [hlt]
              simp [hno] at h
            | true =>
              obtain ⟨g1, g2, h1, h2, heff⟩ :=
                IRGenerator.alloca_store_effect g (ext.Converter d.type) d.id c hbb
              simp only [h1, h2] at h
              simp only [Bool.false_eq_true, if_false, Option.some.injEq, Prod.mk.injEq] at h
              rw [← h.2]
              exact heff.2.1

/-- A function of the module with a given name and type is still there after an argument is
named. -/
theorem IRGenerator.setArgName_keeps (g : IRGenerator) (fn : String) (idx : Nat)
    (argName name : String) (ty : FunctionType)
    (h : ∃ x ∈ g.functions, x.name = name ∧ x.type = ty) :
    ∃ x ∈ (g.setArgName fn idx argName).functions, x.name = name ∧ x.type = ty := by
  obtain ⟨x, hx, hn, ht⟩ := h
  unfold IRGenerator.setArgName
  simp only [List.mem_map]
  by_cases hf : x.name = fn
  · exact ⟨{ x with argNames := x.argNames.set idx argName }, ⟨x, hx, by simp [hf]⟩, hn, ht⟩
  · exact ⟨x, ⟨x, hx, by simp [hf]⟩, hn, ht⟩

theorem FnDecl.emitFormals_keeps (ext : Externals) (fname name : String)
    (ty : FunctionType) :
    ∀ (formals : List VarDecl) (i : Nat) (s s1 : State),
      FnDecl.emitFormals ext fname formals i s = some s1 →
      (∃ x ∈ s.irgen.functions, x.name = name ∧ x.type = ty) →
      ∃ x ∈ s1.irgen.functions, x.name = name ∧ x.type = ty := by
  intro formals
  induction formals with
  | nil =>
    intro i s s1 h hx
    unfold FnDecl.emitFormals at h
    cases h
    exact hx
  | cons v vs ih =>
    intro i s s1 h hx
    unfold FnDecl.emitFormals at h
    cases he : VarDecl.Emit ext v s with
    | none => simp [he] at h
    | some p =>
      obtain ⟨w, s0⟩ := p
      simp only [he] at h
      refine ih (i + 1) _ s1 h ?_
      have hfun := VarDecl.Emit_functions he
      exact IRGenerator.setArgName_keeps s0.irgen fname i v.id name ty (by rw [hfun]; exact hx)

theorem IRGenerator.append_functions {g g1 : IRGenerator} {bb : Option Nat}
    {i : Instruction} (h : g.append bb i = some g1) : g1.functions = g.functions := by
  unfold IRGenerator.append at h
  cases bb with
  | none => cases h
  | some b =>
    simp only at h
    split_ifs at h
    cases h
    rfl

theorem FnDecl.bindFormals_functions (ext : Externals) (fname : String) :
    ∀ (formals : List VarDecl) (g g4 : IRGenerator) (sc sc4 : Scope),
      FnDecl.bindFormals ext fname formals g sc = some (g4, sc4) →
      g4.functions = g.functions := by
  intro formals
  induction formals with
  | nil =>
    intro g g4 sc sc4 h
    unfold FnDecl.bindFormals at h
    cases h
    rfl
  | cons v vs ih =>
    intro g g4 sc sc4 h
    unfold FnDecl.bindFormals at h
    cases h1 : g.newAllocaInst (ext.Converter v.type) v.id g.currentBB with
    | none => simp [h1] at h
    | some p =>
      obtain ⟨w, g1⟩ := p
      cases h2 : g1.newStoreInst (Value.argument fname 0) w g1.currentBB with
      | none => simp [h1, h2] at h
      | some g2 =>
        simp only [h1, h2] at h
        rw [ih g2 g4 _ sc4 h]
        have e2 : g2.functions = g1.functions := IRGenerator.append_functions h2
        have e1 : g1.functions = g.functions := by
          unfold IRGenerator.newAllocaInst at h1
          cases ha : g.append g.currentBB
              (Instruction.alloca g.nextId (ext.Converter v.type) v.id) with
          | none => simp [ha] at h1
          | some ga =>
            simp only [ha, Option.some.injEq, Prod.mk.injEq] at h1
            rw [← h1.2]
            exact (IRGenerator.append_functions ha : ga.functions = g.functions)
        rw [e2, e1]

theorem IRGenerator.getOrInsertFunction_has {g g0 : IRGenerator} {name : String}
    {ty : FunctionType} {v : Value} (h : g.getOrInsertFunction name ty = some (v, g0)) :
    ∃ x ∈ g0.functions, x.name = name ∧ x.type = ty := by
  unfold IRGenerator.getOrInsertFunction at h
  cases hf : g.functions.find? (fun fn => fn.name == name) with
  | none =>
    simp only [hf] at h
    split_ifs at h
    simp only [Option.some.injEq, Prod.mk.injEq] at h
    rw [← h.2]
    exact ⟨_, List.mem_append_right _ (List.mem_singleton.mpr rfl), rfl, rfl⟩
  | some fn =>
    simp only [hf] at h
    split_ifs at h with hty
    simp only [Option.some.injEq, Prod.mk.injEq] at h
    rw [← h.2]
    have hname : fn.name = name := by
      have := List.find?_some hf
      simpa using this
    exact ⟨fn, List.mem_of_find?_eq_some hf, hname, hty⟩

/-- Whenever the prologue of `FnDecl::Emit` completes, the module holds a function with the
declaration's name and the type built at lines 145-163. -/
theorem FnDecl.EmitPrologue_has_function (ext : Externals) (f : FnDecl) (s s1 : State)
    (fh : Value) (h : FnDecl.EmitPrologue ext f s = some (fh, s1)) :
    ∃ x ∈ s1.irgen.functions, x.name = f.id ∧ x.type = FnDecl.funcTy ext f := by
  unfold FnDecl.EmitPrologue at h
  cases hg : s.irgen.getOrInsertFunction f.id (FnDecl.funcTy ext f) with
  | none => simp [hg] at h
  | some p =>
    obtain ⟨fh0, g0⟩ := p
    cases hs : FnDecl.emitFormals ext f.id f.formals 0 { s with irgen := g0 } with
    | none => simp [hg, hs] at h
    | some s0 =>
      simp only [hg, hs] at h
      cases hb : FnDecl.bindFormals ext f.id f.formals
          ((s0.irgen.createBasicBlock "entry" f.id s0.irgen.currentBB).2.SetBasicBlock
            (s0.irgen.createBasicBlock "entry" f.id s0.irgen.currentBB).1) Scope.empty with
      | none => simp [hb] at h
      | some q =>
        obtain ⟨g4, sc4⟩ := q
        simp only [hb, Option.some.injEq, Prod.mk.injEq] at h
        rw [← h.2]
        simp only [FnDecl.bindFormals_functions ext f.id f.formals _ g4 Scope.empty sc4 hb]
        exact FnDecl.emitFormals_keeps ext f.id f.id (FnDecl.funcTy ext f) f.formals 0 _ s0 hs
          (IRGenerator.getOrInsertFunction_has hg)

/-! ## Claims on `FnDecl::Emit` -/

/-- C8: the function type built by `FnDecl::Emit` has the converted return type as result,
the converted types of the formals, in declaration order and as many as there are formals,
as parameters, and is not variadic; and whenever the prologue completes the module holds a
function of the declaration's name with exactly this type. -/
theorem FnDecl_funcTy_signature (ext : Externals) (f : FnDecl) :
    (FnDecl.funcTy ext f).result = ext.Converter (some f.returnType) ∧
    (FnDecl.funcTy ext f).params = f.formals.map (fun v => ext.Converter v.type) ∧
    (FnDecl.funcTy ext f).params.length = f.formals.length ∧
    (∀ (i : Nat) (v : VarDecl), f.formals[i]? = some v →
      (FnDecl.funcTy ext f).params[i]? = some (ext.Converter v.type)) ∧
    (FnDecl.funcTy ext f).isVarArg = false ∧
    ∀ s fh s1, FnDecl.EmitPrologue ext f s = some (fh, s1) →
      ∃ x ∈ s1.irgen.functions, x.name = f.id ∧ x.type = FnDecl.funcTy ext f := by
  have hparams : (FnDecl.funcTy ext f).params =
      f.formals.map (fun v => ext.Converter v.type) := by
    simp only [FnDecl.funcTy, FnDecl.argTypes]
    rw [FnDecl.argTypes_foldl]
    simp
  refine ⟨rfl, hparams, ?_, ?_, rfl, ?_⟩
  · rw [hparams, List.length_map]
  · intro i v hv
    rw [hparams, List.getElem?_map, hv]
    rfl
  · intro s fh s1 h
    exact FnDecl.EmitPrologue_has_function ext f s s1 fh h

/-- C1: for `int f(int a, int b)` emitted from the empty state, the entry block holds two
alloca+store pairs named `a` and `b`, and both stores write argument 0 of `f`: the second
formal does not receive the second argument. -/
theorem FnDecl_Emit_two_formals_store_first_argument :
    (FnDecl.Emit Sample.ext Sample.fAB State.init).map
        (fun q => (q.2.irgen.blocks.map (fun blk => (blk.name, blk.parent)),
          q.2.irgen.currentBB, q.2.irgen.instsOf 0)) =
      some ([("entry", "f")], some 0,
        [Instruction.alloca 2 Sample.llvmInt "a",
         Instruction.store (Value.argument "f" 0) (Value.allocaInst 2),
         Instruction.alloca 3 Sample.llvmInt "b",
         Instruction.store (Value.argument "f" 0) (Value.allocaInst 3)]) ∧
    Value.argument "f" 0 ≠ Value.argument "f" 1 := by
  decide

/-- C4: emitting `int g = 5` and then the prologue of `int f(int n)` from the empty state
leaves two globals in the module, `g` and `n`, and the scope that was current at the
declaration holds `n` flagged global (next to the entry of the formals scope above it). -/
theorem FnDecl_Emit_formal_becomes_global :
    ((VarDecl.Emit Sample.ext Sample.g State.init).bind
        (fun p => FnDecl.EmitPrologue Sample.ext Sample.fN p.2)).map
        (fun q => (q.2.irgen.globals.map (fun gv => gv.name),
          q.2.symTable.map (fun sc => (sc.find "n").map (fun da => (da.value, da.isGlobal))))) =
      some (["g", "n"],
        [some (Value.allocaInst 2, false), some (Value.globalVariable 1, true)]) := by
  decide

/-- C6, as the code has it: on a non-empty scope stack, when the name and signature do not
clash with the module, the formals have a qualifier and an absent or constant initializer,
there is no formal or the top scope has a last entry that is flagged global or else there
is a current block, and the body emission completes and leaves the scope stack as it found
it, `FnDecl::Emit` completes with one scope more on the stack than before: the formals
scope is still on top and every formal is found in it, not flagged global. -/
theorem FnDecl_Emit_leaves_formals_scope_pushed (ext : Externals) (f : FnDecl) (s : State)
    (decls : List VarDecl) (stmts : List String)
    (hsig : ∀ fn ∈ s.irgen.functions, fn.name = f.id → fn.type = FnDecl.funcTy ext f)
    (hvar : (∀ fn ∈ s.irgen.functions, fn.name ≠ f.id) →
      ∀ gv ∈ s.irgen.globals, gv.name ≠ f.id)
    (hwf : ∀ v ∈ f.formals, ∃ tq c, v.typeq = some tq ∧ VarDecl.constant ext v = some c)
    (hne : s.symTable ≠ [])
    (hstack : f.formals = [] ∨
      ∃ top rest a, s.symTable = top :: rest ∧ top.rbegin = some a ∧
        (a.isGlobal = true ∨ s.irgen.hasCurrentBlock = true))
    (hbody : f.body = some (Stmt.StmtBlock decls stmts))
    (hEmit : ∀ st, ∃ st1, ext.EmitFromFunc decls stmts st = some st1 ∧
      st1.symTable = st.symTable) :
    ∃ s2 newScope below, FnDecl.Emit ext f s = some (Value.function f.id, s2) ∧
      s2.depth = s.depth + 1 ∧
      s2.symTable = newScope :: below ∧ below.length = s.depth ∧
      ∀ v ∈ f.formals, ∃ da, newScope.find v.id = some da ∧ da.isGlobal = false := by
  have hstack3 : f.formals = [] ∨ s.symTable = [] ∨
      ∃ top rest a, s.symTable = top :: rest ∧ top.rbegin = some a ∧
        (a.isGlobal = true ∨ s.irgen.hasCurrentBlock = true) := by
    rcases hstack with h | h
    · exact Or.inl h
    · exact Or.inr (Or.inr h)
  obtain ⟨s1, newScope, cur, hP, hsym, hfound, _⟩ :=
    FnDecl.EmitPrologue_spec ext f s hsig hvar hwf hstack3
  obtain ⟨st1, hst1, hkeep⟩ := hEmit s1
  have hlen : (cur :: s.symTable.tail).length = s.depth := by
    unfold State.depth
    cases hs : s.symTable with
    | nil => exact absurd hs hne
    | cons top rest => simp
  refine ⟨st1, newScope, cur :: s.symTable.tail, ?_, ?_, ?_, hlen, hfound⟩
  · unfold FnDecl.Emit
    simp only [hP, hbody, hst1]
  · unfold State.depth at hlen ⊢
    rw [hkeep, hsym, List.length_cons, hlen]
  · rw [hkeep, hsym]

/-- C6, as the code has it, at a concrete input: `int f(int n)` emitted where only the
bottom scope, holding `g`, is on the stack, with a body emission that changes nothing. -/
theorem FnDecl_Emit_leaves_formals_scope_pushed_witness :
    Sample.topLevelNoFn.symTable ≠ [] ∧
    Sample.fN.body = some (Stmt.StmtBlock [] []) ∧
    (∀ st, ∃ st1, Sample.ext.EmitFromFunc [] [] st = some st1 ∧
      st1.symTable = st.symTable) ∧
    ∃ s2 newScope below,
      FnDecl.Emit Sample.ext Sample.fN Sample.topLevelNoFn = some (Value.function "f", s2) ∧
      s2.depth = 2 ∧
      s2.symTable = newScope :: below ∧ below.length = 1 ∧
      ∀ v ∈ [Sample.n], ∃ da, newScope.find v.id = some da ∧ da.isGlobal = false := by
  refine ⟨by decide, rfl, fun st => ⟨st, rfl, rfl⟩, ?_⟩
  exact FnDecl_Emit_leaves_formals_scope_pushed Sample.ext Sample.fN Sample.topLevelNoFn [] []
    (by decide) (fun _ => by decide)
    (by
      intro v hv
      have hvn : v = Sample.n := by simpa [Sample.fN] using hv
      subst hvn
      exact ⟨Sample.plainQualifier, Value.nullValue Sample.llvmInt, rfl, rfl⟩)
    (by decide)
    (Or.inr ⟨Sample.bottomG, [],
      { decl := Decl.var Sample.g, value := Value.globalVariable 0, isGlobal := true },
      rfl, by decide, Or.inl rfl⟩)
    rfl (fun st => ⟨st, rfl, rfl⟩)

/-- C6 fails as stated: with `int g = 5` declared (one scope on the stack) and a body
emission that leaves the state as it found it, `int f(int n)` ends with two scopes on the
stack, and the scope on top still resolves the formal `n` to its stack slot. -/
theorem FnDecl_Emit_scope_not_popped_counterexample :
    Sample.topLevelNoFn.depth = 1 ∧
    (∀ st : State, Sample.ext.EmitFromFunc [] [] st = some st) ∧
    (FnDecl.Emit Sample.ext Sample.fN Sample.topLevelNoFn).map
        (fun q => (q.2.depth,
          q.2.symTable.head?.bind (fun sc => (sc.find "n").map (fun da => da.value)))) =
      some (2, some (Value.allocaInst 2)) := by
  refine ⟨by decide, fun _ => rfl, by decide⟩

end Project4
